import Mathlib

/-!
Shallow embedding of the image-compositing and canvas-geometry utilities of
`src/services/geminiService.ts` (the cpgvn-app repository), together with
theorems settling the frozen claims about them.

Pixels are modelled in premultiplied-alpha form with exact rational channels:
the HTML canvas compositing rules `source-over`, `destination-in` and
`source-in` are linear in premultiplied space, which is how the browser
evaluates them.  Image resampling (the stretch performed by
`drawImage(img, 0, 0, w, h)`) is modelled by nearest-neighbour sampling; every
statement that involves a resampled image refers to this same `resample`
function on both sides, so no theorem depends on the particular sampling
kernel.
-/

namespace CpgvnApp

/-- A premultiplied-alpha RGBA pixel with exact rational channels. -/
structure Pixel where
  r : ℚ
  g : ℚ
  b : ℚ
  a : ℚ
  deriving DecidableEq, Repr

/-- The fully transparent pixel (all channels zero in premultiplied form). -/
def Pixel.transparent : Pixel := ⟨0, 0, 0, 0⟩

/-- Canvas `source-over` on premultiplied pixels: `out = src + dst·(1 − src.a)`. -/
def srcOver (s d : Pixel) : Pixel :=
  ⟨s.r + d.r * (1 - s.a), s.g + d.g * (1 - s.a), s.b + d.b * (1 - s.a),
   s.a + d.a * (1 - s.a)⟩

/-- Canvas `destination-in` on premultiplied pixels: the existing content is
kept scaled by the alpha of the newly drawn source, `out = dst·src.a`. -/
def destIn (s d : Pixel) : Pixel :=
  ⟨d.r * s.a, d.g * s.a, d.b * s.a, d.a * s.a⟩

/-- Canvas `source-in` on premultiplied pixels: the newly drawn source is kept
scaled by the alpha of the existing content, `out = src·dst.a`. -/
def srcIn (s d : Pixel) : Pixel :=
  ⟨s.r * d.a, s.g * d.a, s.b * d.a, s.a * d.a⟩

/-- A decoded raster surface: integer dimensions and a pixel function. -/
structure Image where
  width : ℕ
  height : ℕ
  pix : ℕ → ℕ → Pixel

/-- Reading a canvas beyond its extent yields transparent pixels. -/
def Image.atPx (img : Image) (x y : ℕ) : Pixel :=
  if x < img.width ∧ y < img.height then img.pix x y else Pixel.transparent

/-- Reading at signed coordinates (used for draws at an `(dx, dy)` offset);
out-of-range reads are transparent. -/
def Image.atInt (img : Image) (x y : ℤ) : Pixel :=
  if 0 ≤ x ∧ x < (img.width : ℤ) ∧ 0 ≤ y ∧ y < (img.height : ℤ) then
    img.pix x.toNat y.toNat
  else Pixel.transparent

/-- A freshly allocated canvas: fully transparent. -/
def blank (w h : ℕ) : Image := ⟨w, h, fun _ _ => Pixel.transparent⟩

/-- A canvas filled with a single colour (`fillRect` over the whole canvas). -/
def filled (w h : ℕ) (p : Pixel) : Image := ⟨w, h, fun _ _ => p⟩

/-- Nearest-neighbour model of the stretch performed by
`drawImage(src, 0, 0, w, h)`. -/
def resample (src : Image) (w h : ℕ) : Image :=
  ⟨w, h, fun x y => src.atPx (x * src.width / w) (y * src.height / h)⟩

/-- `ctx.drawImage(src, 0, 0)` at natural size with default `source-over`. -/
def drawUnscaled (dest src : Image) : Image :=
  ⟨dest.width, dest.height, fun x y => srcOver (src.atPx x y) (dest.pix x y)⟩

/-- `ctx.drawImage(src, 0, 0, dest.width, dest.height)`: the source is
stretched to the destination's full extent, composited with `source-over`. -/
def drawScaled (dest src : Image) : Image :=
  ⟨dest.width, dest.height,
   fun x y => srcOver ((resample src dest.width dest.height).pix x y) (dest.pix x y)⟩

/-- `ctx.drawImage(src, dx, dy)` at natural size at a signed offset,
composited with `source-over`. -/
def drawUnscaledAt (dest src : Image) (dx dy : ℤ) : Image :=
  ⟨dest.width, dest.height,
   fun x y => srcOver (src.atInt ((x : ℤ) - dx) ((y : ℤ) - dy)) (dest.pix x y)⟩

/-- Drawing `src` stretched to the destination's full extent under
`globalCompositeOperation = 'destination-in'`: every destination pixel is
scaled by the alpha of the stretched source (pixels the source does not cover
would be cleared, but the stretched source covers the whole canvas). -/
def drawScaledDestIn (dest src : Image) : Image :=
  ⟨dest.width, dest.height,
   fun x y => destIn ((resample src dest.width dest.height).pix x y) (dest.pix x y)⟩

/-- Drawing `src` stretched to the destination's full extent under
`globalCompositeOperation = 'source-in'`: the stretched source is kept only
where the existing content is opaque, everything else becomes transparent. -/
def drawScaledSrcIn (dest src : Image) : Image :=
  ⟨dest.width, dest.height,
   fun x y => srcIn ((resample src dest.width dest.height).pix x y) (dest.pix x y)⟩

/-!
## `strictComposite` (src/services/geminiService.ts, lines 220–247)

```ts
const [orig, gen, mask] = await Promise.all([...]);
canvas.width = orig.width; canvas.height = orig.height;
ctx.drawImage(orig, 0, 0);
tempCanvas.width = canvas.width; tempCanvas.height = canvas.height;
tempCtx.drawImage(gen, 0, 0, canvas.width, canvas.height);
tempCtx.globalCompositeOperation = 'destination-in';
tempCtx.drawImage(mask, 0, 0, canvas.width, canvas.height);
ctx.drawImage(tempCanvas, 0, 0);
return canvas.toDataURL('image/png');
```
-/

/-- The pixel pipeline of `strictComposite` on the three decoded images. -/
def strictCompositeImages (orig gen mask : Image) : Image :=
  let w := orig.width
  let h := orig.height
  let base := drawUnscaled (blank w h) orig
  let temp := drawScaled (blank w h) gen
  let tempMasked := drawScaledDestIn temp mask
  drawUnscaled base tempMasked

/-- The `try/catch` shell of `strictComposite`: the three data-URL strings are
decoded; if any decode fails the raw `generatedB64` string is returned
unmodified, otherwise the composited canvas is re-encoded.  `decode` and
`encodePng` stand for the browser's image decoder and `canvas.toDataURL`. -/
def strictComposite (decode : String → Option Image) (encodePng : Image → String)
    (originalB64 generatedB64 maskB64 : String) : String :=
  match decode originalB64, decode generatedB64, decode maskB64 with
  | some orig, some gen, some mask => encodePng (strictCompositeImages orig gen mask)
  | _, _, _ => generatedB64

/-! ### Pixel-algebra lemmas for the canvas compositing rules -/

theorem srcOver_transparent_left (d : Pixel) : srcOver Pixel.transparent d = d := by
  cases d with
  | mk r g b a => simp [srcOver, Pixel.transparent]

theorem srcOver_transparent_right (s : Pixel) : srcOver s Pixel.transparent = s := by
  cases s with
  | mk r g b a => simp [srcOver, Pixel.transparent]

theorem srcOver_opaque_left (s d : Pixel) (h : s.a = 1) : srcOver s d = s := by
  cases s with
  | mk r g b a => simp_all [srcOver]

theorem destIn_zero_alpha (s d : Pixel) (h : s.a = 0) : destIn s d = Pixel.transparent := by
  simp [destIn, h, Pixel.transparent]

theorem destIn_one_alpha (s d : Pixel) (h : s.a = 1) : destIn s d = d := by
  cases d with
  | mk r g b a => simp [destIn, h]

theorem atPx_alpha_zero (img : Image)
    (h : ∀ i j, i < img.width → j < img.height → (img.pix i j).a = 0) (x y : ℕ) :
    (img.atPx x y).a = 0 := by
  unfold Image.atPx
  split
  · next hin => exact h x y hin.1 hin.2
  · rfl

theorem Image.atPx_eq_pix (img : Image) (x y : ℕ)
    (hx : x < img.width) (hy : y < img.height) : img.atPx x y = img.pix x y :=
  if_pos ⟨hx, hy⟩

theorem resample_index_lt {x w s : ℕ} (hx : x < w) (hs : 0 < s) : x * s / w < s := by
  have hw : 0 < w := lt_of_le_of_lt (Nat.zero_le x) hx
  rw [Nat.div_lt_iff_lt_mul hw, Nat.mul_comm s w]
  exact Nat.mul_lt_mul_of_lt_of_le hx (le_refl s) hs

theorem resample_pix_eq (src : Image) (w h x y : ℕ)
    (hx : x < w) (hy : y < h) (hsw : 0 < src.width) (hsh : 0 < src.height) :
    (resample src w h).pix x y = src.pix (x * src.width / w) (y * src.height / h) := by
  unfold resample Image.atPx
  exact if_pos ⟨resample_index_lt hx hsw, resample_index_lt hy hsh⟩

/-!
## Claims C1 and C2: the mask edge cases of `strictComposite`

`destination-in` keys only on the *alpha* of the drawn mask.  A mask whose
pixels are opaque black (zero luminance, alpha one) therefore keeps the whole
candidate, so the "mask entirely black (zero alpha/luminance)" claim fails in
its luminance reading; it holds for masks whose alpha channel is zero.
Dually, an entirely white mask passes the candidate through only where the
candidate itself is opaque; where the candidate is transparent the original
shows through `source-over`.
-/

/-- **C1 (amended)**: for every original and candidate and every mask whose
pixels all have zero *alpha*, `strictComposite` is pixel-identical to the
original on the original's extent.  (The luminance half of the claim is
refuted by `c1_opaque_black_mask_counterexample`.) -/
theorem c1_strictComposite_zero_alpha_mask_is_original
    (orig gen mask : Image)
    (hmask : ∀ i j, i < mask.width → j < mask.height → (mask.pix i j).a = 0)
    (x y : ℕ) (hx : x < orig.width) (hy : y < orig.height) :
    (strictCompositeImages orig gen mask).pix x y = orig.pix x y := by
  have hmaska : ((resample mask orig.width orig.height).pix x y).a = 0 :=
    atPx_alpha_zero mask hmask _ _
  show srcOver ((drawScaledDestIn (drawScaled (blank orig.width orig.height) gen) mask).atPx x y)
      ((drawUnscaled (blank orig.width orig.height) orig).pix x y) = orig.pix x y
  rw [Image.atPx_eq_pix
    (drawScaledDestIn (drawScaled (blank orig.width orig.height) gen) mask) x y hx hy]
  show srcOver (destIn ((resample mask orig.width orig.height).pix x y) _) _ = _
  rw [destIn_zero_alpha _ _ hmaska, srcOver_transparent_left]
  show srcOver (orig.atPx x y) Pixel.transparent = orig.pix x y
  rw [srcOver_transparent_right, Image.atPx_eq_pix _ _ _ hx hy]

/-- **C1 (counterexample)**: with a 1×1 opaque-black mask (zero luminance,
alpha one) — the kind of mask the app's own mask editor produces — the
composite equals the candidate, not the original: `destination-in` ignores
luminance. -/
theorem c1_opaque_black_mask_counterexample :
    ¬ ((strictCompositeImages (filled 1 1 ⟨1, 0, 0, 1⟩) (filled 1 1 ⟨0, 0, 1, 1⟩)
        (filled 1 1 ⟨0, 0, 0, 1⟩)).pix 0 0 = (filled 1 1 ⟨1, 0, 0, 1⟩).pix 0 0) := by
  simp only [strictCompositeImages, drawUnscaled, drawScaled, drawScaledDestIn, resample,
    blank, filled, Image.atPx, srcOver, destIn, Pixel.transparent, Pixel.mk.injEq]
  norm_num

/-- Witness for C1: concrete 1×1 images with a fully transparent mask. -/
theorem c1_witness :
    (strictCompositeImages (filled 1 1 ⟨1, 0, 0, 1⟩) (filled 1 1 ⟨0, 0, 1, 1⟩)
      (filled 1 1 Pixel.transparent)).pix 0 0 = (filled 1 1 ⟨1, 0, 0, 1⟩).pix 0 0 :=
  c1_strictComposite_zero_alpha_mask_is_original _ _ _
    (fun _ _ _ _ => rfl) 0 0 (by decide) (by decide)

/-- **C2 (amended)**: if the (non-empty) mask is entirely opaque white and the
(non-empty) candidate is fully opaque, `strictComposite` is pixel-identical to
the candidate resampled to the original's dimensions.  (For a candidate with
transparent pixels the original shows through — see
`c2_transparent_candidate_counterexample`.) -/
theorem c2_strictComposite_white_mask_is_resampled_candidate
    (orig gen mask : Image)
    (hmw : 0 < mask.width) (hmh : 0 < mask.height)
    (hmask : ∀ i j, i < mask.width → j < mask.height → mask.pix i j = ⟨1, 1, 1, 1⟩)
    (hgw : 0 < gen.width) (hgh : 0 < gen.height)
    (hgen : ∀ i j, i < gen.width → j < gen.height → (gen.pix i j).a = 1)
    (x y : ℕ) (hx : x < orig.width) (hy : y < orig.height) :
    (strictCompositeImages orig gen mask).pix x y =
      (resample gen orig.width orig.height).pix x y := by
  have hmaskpix : ((resample mask orig.width orig.height).pix x y).a = 1 := by
    rw [resample_pix_eq mask _ _ _ _ hx hy hmw hmh,
      hmask _ _ (resample_index_lt hx hmw) (resample_index_lt hy hmh)]
  have hgenpix : ((resample gen orig.width orig.height).pix x y).a = 1 := by
    rw [resample_pix_eq gen _ _ _ _ hx hy hgw hgh]
    exact hgen _ _ (resample_index_lt hx hgw) (resample_index_lt hy hgh)
  show srcOver ((drawScaledDestIn (drawScaled (blank orig.width orig.height) gen) mask).atPx x y)
      ((drawUnscaled (blank orig.width orig.height) orig).pix x y) =
      (resample gen orig.width orig.height).pix x y
  rw [Image.atPx_eq_pix
    (drawScaledDestIn (drawScaled (blank orig.width orig.height) gen) mask) x y hx hy]
  show srcOver (destIn ((resample mask orig.width orig.height).pix x y)
      (srcOver ((resample gen orig.width orig.height).pix x y) Pixel.transparent)) _ = _
  rw [destIn_one_alpha _ _ hmaskpix, srcOver_transparent_right,
    srcOver_opaque_left _ _ hgenpix]

/-- **C2 (counterexample)**: with an entirely white 1×1 mask and a fully
transparent 1×1 candidate, the composite shows the original, not the
(transparent) resampled candidate. -/
theorem c2_transparent_candidate_counterexample :
    ¬ ((strictCompositeImages (filled 1 1 ⟨1, 0, 0, 1⟩) (filled 1 1 Pixel.transparent)
        (filled 1 1 ⟨1, 1, 1, 1⟩)).pix 0 0 =
      (resample (filled 1 1 Pixel.transparent) 1 1).pix 0 0) := by
  simp only [strictCompositeImages, drawUnscaled, drawScaled, drawScaledDestIn, resample,
    blank, filled, Image.atPx, srcOver, destIn, Pixel.transparent, Pixel.mk.injEq]
  norm_num

/-- Witness for C2: a concrete opaque 1×1 candidate under a white 1×1 mask. -/
theorem c2_witness :
    (strictCompositeImages (filled 1 1 ⟨1, 0, 0, 1⟩) (filled 1 1 ⟨0, 0, 1, 1⟩)
      (filled 1 1 ⟨1, 1, 1, 1⟩)).pix 0 0 =
      (resample (filled 1 1 ⟨0, 0, 1, 1⟩) 1 1).pix 0 0 :=
  c2_strictComposite_white_mask_is_resampled_candidate _ _ _
    (by decide) (by decide) (fun _ _ _ _ => rfl)
    (by decide) (by decide) (fun _ _ _ _ => rfl) 0 0 (by decide) (by decide)

/-- **C3 (confirmed)**: if decoding any of the three inputs fails,
`strictComposite` returns the raw candidate string unmodified (and, being a
total function, never raises to the caller). -/
theorem c3_strictComposite_decode_failure_returns_candidate
    (decode : String → Option Image) (encodePng : Image → String)
    (originalB64 generatedB64 maskB64 : String)
    (h : decode originalB64 = none ∨ decode generatedB64 = none ∨ decode maskB64 = none) :
    strictComposite decode encodePng originalB64 generatedB64 maskB64 = generatedB64 := by
  rcases h with h | h | h <;>
    cases ho : decode originalB64 <;> cases hg : decode generatedB64 <;>
      cases hm : decode maskB64 <;> simp_all [strictComposite]

/-- Witness for C3: a decoder that fails on everything. -/
theorem c3_witness :
    strictComposite (fun _ => none) (fun _ => "") "o" "g" "m" = "g" :=
  c3_strictComposite_decode_failure_returns_candidate _ _ _ _ _ (Or.inl rfl)

/-!
## `padImageToAspectRatioWithColor` (src/services/geminiService.ts, lines 662–680)

```ts
const originalAspectRatio = img.naturalWidth / img.naturalHeight;
let canvasWidth = img.naturalWidth; let canvasHeight = img.naturalHeight;
let dx = 0; let dy = 0;
if (originalAspectRatio > targetAspectRatio) {
    canvasHeight = Math.round(img.naturalWidth / targetAspectRatio);
    dy = Math.round((canvasHeight - img.naturalHeight) / 2);
} else {
    canvasWidth = Math.round(img.naturalHeight * targetAspectRatio);
    dx = Math.round((canvasWidth - img.naturalWidth) / 2);
}
```
`outpaintImage` (lines 1336–1347 of the second copy) recomputes exactly the
same geometry.  `Math.round` rounds half toward `+∞`, as does Mathlib's
`round` on `ℚ`.
-/

/-- The canvas dimensions and centering offsets computed by
`padImageToAspectRatioWithColor` (and recomputed verbatim by `outpaintImage`). -/
structure PadGeom where
  canvasWidth : ℤ
  canvasHeight : ℤ
  dx : ℤ
  dy : ℤ
  deriving DecidableEq, Repr

/-- The geometry computation of `padImageToAspectRatioWithColor`, over exact
rationals. -/
def padGeometry (w h : ℕ) (targetAspectRatio : ℚ) : PadGeom :=
  let originalAspectRatio : ℚ := (w : ℚ) / (h : ℚ)
  if originalAspectRatio > targetAspectRatio then
    let canvasHeight : ℤ := round ((w : ℚ) / targetAspectRatio)
    { canvasWidth := (w : ℤ), canvasHeight := canvasHeight, dx := 0,
      dy := round (((canvasHeight : ℚ) - (h : ℚ)) / 2) }
  else
    let canvasWidth : ℤ := round ((h : ℚ) * targetAspectRatio)
    { canvasWidth := canvasWidth, canvasHeight := (h : ℤ),
      dx := round (((canvasWidth : ℚ) - (w : ℚ)) / 2), dy := 0 }

/-- The output dimensions of `padImageToAspectRatioWithColor` as the natural
numbers assigned to `canvas.width` / `canvas.height`. -/
def padDims (w h : ℕ) (targetAspectRatio : ℚ) : ℕ × ℕ :=
  ((padGeometry w h targetAspectRatio).canvasWidth.toNat,
   (padGeometry w h targetAspectRatio).canvasHeight.toNat)

/-- **C4 (confirmed)**: the padding geometry is exactly the claimed formula in
both branches, and a 200×100 source padded to ratio 1 gives a 200×200 canvas
with the source drawn at `dx = 0`, `dy = 50`. -/
theorem c4_padGeometry_formula (w h : ℕ) (r : ℚ) :
    ((w : ℚ) / (h : ℚ) > r →
      padGeometry w h r =
        { canvasWidth := (w : ℤ), canvasHeight := round ((w : ℚ) / r), dx := 0,
          dy := round (((round ((w : ℚ) / r) : ℚ) - (h : ℚ)) / 2) }) ∧
    (¬ ((w : ℚ) / (h : ℚ) > r) →
      padGeometry w h r =
        { canvasWidth := round ((h : ℚ) * r), canvasHeight := (h : ℤ),
          dx := round (((round ((h : ℚ) * r) : ℚ) - (w : ℚ)) / 2), dy := 0 }) ∧
    padGeometry 200 100 1 =
      { canvasWidth := 200, canvasHeight := 200, dx := 0, dy := 50 } := by
  refine ⟨fun hgt => ?_, fun hle => ?_, ?_⟩
  · rw [padGeometry, if_pos hgt]
  · rw [padGeometry, if_neg hle]
  · norm_num [padGeometry, round_eq]

/-- Witness for C4: a 300×100 source at target ratio 2 takes the first branch. -/
theorem c4_witness :
    padGeometry 300 100 2 =
      { canvasWidth := 300, canvasHeight := round ((300 : ℚ) / 2), dx := 0,
        dy := round (((round ((300 : ℚ) / 2) : ℚ) - (100 : ℚ)) / 2) } :=
  (c4_padGeometry_formula 300 100 2).1 (by norm_num)

/-- **C5 (counterexample)**: padding is *not* idempotent in dimensions.  A 1×2
source padded to ratio 3/4 becomes 2×2 (`round(2·0.75) = 2`), and padding the
2×2 result again grows it to 2×3 (`round(2/0.75) = 3`). -/
theorem c5_padding_not_idempotent_counterexample :
    padDims 1 2 (3 / 4) = (2, 2) ∧
      padDims 2 2 (3 / 4) ≠ padDims 1 2 (3 / 4) := by
  constructor
  · norm_num [padDims, padGeometry, round_eq]
    decide
  · norm_num [padDims, padGeometry, round_eq]
    decide

/-- **C5 (amended)**: a source already exactly at the target ratio grows no
further — its padded dimensions are unchanged.  (Full idempotence fails
because rounding can leave the first output off-ratio; see the
counterexample.) -/
theorem c5_pad_at_ratio_keeps_dims (w h : ℕ) (r : ℚ)
    (hh : 0 < h) (hr : (w : ℚ) / (h : ℚ) = r) :
    padDims w h r = (w, h) := by
  have hh0 : ((h : ℚ)) ≠ 0 := by positivity
  have hcw : ((h : ℚ)) * r = (w : ℚ) := by
    rw [← hr, mul_div_cancel₀ _ hh0]
  unfold padDims padGeometry
  rw [if_neg (by rw [hr]; exact lt_irrefl r)]
  simp [hcw, round_intCast]

/-- Witness for C5: a 2×2 source at target ratio 1 keeps its dimensions. -/
theorem c5_witness : padDims 2 2 1 = (2, 2) :=
  c5_pad_at_ratio_keeps_dims 2 2 1 (by norm_num) (by norm_num)

/-!
## `getClosestAspectRatio` (src/services/geminiService.ts, lines 192–217)

```ts
const ratio = img.width / img.height;
const supportedRatios = [
    { label: "1:1", value: 1.0 }, { label: "4:3", value: 1.333 },
    { label: "3:4", value: 0.75 }, { label: "16:9", value: 1.777 },
    { label: "9:16", value: 0.5625 },
];
let minDiff = Number.MAX_VALUE;
let closest = "1:1";
for (const r of supportedRatios) {
    const diff = Math.abs(ratio - r.value);
    if (diff < minDiff) { minDiff = diff; closest = r.label; }
}
return closest;
```
wrapped in `try { ... } catch { return "1:1"; }`.
-/

/-- The fixed ratio table, in its declared scan order. -/
def supportedRatios : List (String × ℚ) :=
  [("1:1", 1), ("4:3", 1333 / 1000), ("3:4", 3 / 4), ("16:9", 1777 / 1000), ("9:16", 9 / 16)]

/-- `Number.MAX_VALUE`, the initial value of `minDiff`, exactly. -/
def jsMaxValue : ℚ := 2 ^ 1024 - 2 ^ 971

/-- The `for`-loop of `getClosestAspectRatio`: a linear scan keeping the first
strict improvement over the running minimum. -/
def ratioScan (ratio : ℚ) : List (String × ℚ) → ℚ → String → String
  | [], _, closest => closest
  | p :: rest, minDiff, closest =>
    if |ratio - p.2| < minDiff then ratioScan ratio rest |ratio - p.2| p.1
    else ratioScan ratio rest minDiff closest

/-- The body of `getClosestAspectRatio` on a successfully decoded ratio. -/
def getClosestAspectRatioCore (ratio : ℚ) : String :=
  ratioScan ratio supportedRatios jsMaxValue "1:1"

/-- `getClosestAspectRatio` itself: decoding the image either yields its
dimensions or fails, and the surrounding `catch` returns `"1:1"` on failure. -/
def getClosestAspectRatio (dims : Option (ℕ × ℕ)) : String :=
  match dims with
  | none => "1:1"
  | some (w, h) => getClosestAspectRatioCore ((w : ℚ) / (h : ℚ))

/-- Modelled from the spec's words for comparison: the label of the *first*
table entry whose distance to `ratio` is minimal over the whole table. -/
def specClosestRatio (ratio : ℚ) : String :=
  ((supportedRatios.find?
      (fun p => supportedRatios.all (fun q => decide (|ratio - p.2| ≤ |ratio - q.2|)))).map
    Prod.fst).getD "1:1"

/-- First-minimum characterisation of a scan state: the first entry of `l`
that improves on `m` and is minimal over `l`, with default `c`. -/
def scanSpec (ratio : ℚ) (l : List (String × ℚ)) (m : ℚ) (c : String) : String :=
  ((l.find? (fun p => decide (|ratio - p.2| < m) &&
      l.all (fun q => decide (|ratio - p.2| ≤ |ratio - q.2|)))).map Prod.fst).getD c

theorem find?_congr_of_mem {α : Type} {p q : α → Bool} :
    ∀ l : List α, (∀ x ∈ l, p x = q x) → l.find? p = l.find? q := by
  intro l
  induction l with
  | nil => intro _; rfl
  | cons a rest ih =>
    intro h
    rw [List.find?_cons, List.find?_cons, h a (List.mem_cons_self a rest),
      ih (fun x hx => h x (List.mem_cons_of_mem a hx))]

theorem exists_min_diff (ratio : ℚ) :
    ∀ l : List (String × ℚ), l ≠ [] →
      ∃ p ∈ l, ∀ q ∈ l, |ratio - p.2| ≤ |ratio - q.2| := by
  intro l
  induction l with
  | nil => intro h; exact absurd rfl h
  | cons a rest ih =>
    intro _
    rcases eq_or_ne rest [] with hrest | hrest
    · subst hrest
      refine ⟨a, List.mem_cons_self a [], ?_⟩
      intro q hq
      rcases List.mem_singleton.mp hq with rfl
      exact le_refl _
    · obtain ⟨p, hp, hmin⟩ := ih hrest
      rcases le_or_lt (|ratio - a.2|) (|ratio - p.2|) with hap | hap
      · refine ⟨a, List.mem_cons_self a rest, ?_⟩
        intro q hq
        rcases List.mem_cons.mp hq with rfl | hq
        · exact le_refl _
        · exact le_trans hap (hmin q hq)
      · refine ⟨p, List.mem_cons_of_mem a hp, ?_⟩
        intro q hq
        rcases List.mem_cons.mp hq with rfl | hq
        · exact le_of_lt hap
        · exact hmin q hq

/-- The running scan of `getClosestAspectRatio` computes the first-minimum
characterisation, for every list, running minimum and default. -/
theorem ratioScan_eq_scanSpec (ratio : ℚ) :
    ∀ (l : List (String × ℚ)) (m : ℚ) (c : String),
      ratioScan ratio l m c = scanSpec ratio l m c := by
  intro l
  induction l with
  | nil => intro m c; rfl
  | cons a rest ih =>
    intro m c
    by_cases ha : |ratio - a.2| < m
    · by_cases hmin : ∀ q ∈ rest, |ratio - a.2| ≤ |ratio - q.2|
      · have hconda : (decide (|ratio - a.2| < m) &&
            (a :: rest).all (fun q => decide (|ratio - a.2| ≤ |ratio - q.2|))) = true := by
          simp only [Bool.and_eq_true, decide_eq_true_eq, List.all_eq_true]
          refine ⟨ha, ?_⟩
          intro q hq
          rcases List.mem_cons.mp hq with rfl | hq
          · exact le_refl _
          · exact hmin q hq
        have hnone : rest.find? (fun p => decide (|ratio - p.2| < |ratio - a.2|) &&
            rest.all (fun q => decide (|ratio - p.2| ≤ |ratio - q.2|))) = none := by
          rw [List.find?_eq_none]
          intro p hp
          simp only [Bool.and_eq_true, decide_eq_true_eq, List.all_eq_true, not_and]
          intro hlt
          exact absurd hlt (not_lt.mpr (hmin p hp))
        calc ratioScan ratio (a :: rest) m c
            = ratioScan ratio rest (|ratio - a.2|) a.1 := by
              simp only [ratioScan, if_pos ha]
          _ = scanSpec ratio rest (|ratio - a.2|) a.1 := ih _ _
          _ = a.1 := by rw [scanSpec, hnone]; rfl
          _ = scanSpec ratio (a :: rest) m c := by
              have hfind : (a :: rest).find? (fun p => decide (|ratio - p.2| < m) &&
                  (a :: rest).all fun q => decide (|ratio - p.2| ≤ |ratio - q.2|)) = some a :=
                List.find?_cons_of_pos rest hconda
              rw [scanSpec, hfind]
              rfl
      · push_neg at hmin
        obtain ⟨q0, hq0, hq0lt⟩ := hmin
        have hconda : ¬ ((decide (|ratio - a.2| < m) &&
            (a :: rest).all (fun q => decide (|ratio - a.2| ≤ |ratio - q.2|))) = true) := by
          simp only [Bool.and_eq_true, decide_eq_true_eq, List.all_eq_true]
          rintro ⟨-, hall⟩
          exact absurd (hall q0 (List.mem_cons_of_mem a hq0)) (not_le.mpr hq0lt)
        have hcongr : ∀ p ∈ rest,
            (decide (|ratio - p.2| < |ratio - a.2|) &&
              rest.all (fun q => decide (|ratio - p.2| ≤ |ratio - q.2|))) =
            (decide (|ratio - p.2| < m) &&
              (a :: rest).all (fun q => decide (|ratio - p.2| ≤ |ratio - q.2|))) := by
          intro p hp
          by_cases hall : ∀ q ∈ rest, |ratio - p.2| ≤ |ratio - q.2|
          · have h1 : |ratio - p.2| < |ratio - a.2| := lt_of_le_of_lt (hall q0 hq0) hq0lt
            have h2 : |ratio - p.2| < m := lt_trans h1 ha
            have hallb : rest.all (fun q => decide (|ratio - p.2| ≤ |ratio - q.2|)) = true := by
              simp only [List.all_eq_true, decide_eq_true_eq]
              exact hall
            simp [List.all_cons, hallb, h1, h2, le_of_lt h1]
          · have hallb : rest.all (fun q => decide (|ratio - p.2| ≤ |ratio - q.2|)) = false := by
              rw [Bool.eq_false_iff]
              simp only [ne_eq, List.all_eq_true, decide_eq_true_eq]
              exact hall
            simp [List.all_cons, hallb]
        have hfind : (a :: rest).find? (fun p => decide (|ratio - p.2| < m) &&
            (a :: rest).all fun q => decide (|ratio - p.2| ≤ |ratio - q.2|)) =
            rest.find? (fun p => decide (|ratio - p.2| < |ratio - a.2|) &&
              rest.all fun q => decide (|ratio - p.2| ≤ |ratio - q.2|)) := by
          rw [List.find?_cons_of_neg rest hconda]
          exact (find?_congr_of_mem rest hcongr).symm
        obtain ⟨p0, hp0, hp0min⟩ := exists_min_diff ratio rest (List.ne_nil_of_mem hq0)
        have hp0cond : (decide (|ratio - p0.2| < |ratio - a.2|) &&
            rest.all (fun q => decide (|ratio - p0.2| ≤ |ratio - q.2|))) = true := by
          simp only [Bool.and_eq_true, decide_eq_true_eq, List.all_eq_true]
          exact ⟨lt_of_le_of_lt (hp0min q0 hq0) hq0lt, hp0min⟩
        cases hres : rest.find? (fun p => decide (|ratio - p.2| < |ratio - a.2|) &&
            rest.all fun q => decide (|ratio - p.2| ≤ |ratio - q.2|)) with
        | none =>
          exact absurd hp0cond (List.find?_eq_none.mp hres p0 hp0)
        | some p1 =>
          calc ratioScan ratio (a :: rest) m c
              = ratioScan ratio rest (|ratio - a.2|) a.1 := by
                simp only [ratioScan, if_pos ha]
            _ = scanSpec ratio rest (|ratio - a.2|) a.1 := ih _ _
            _ = p1.1 := by rw [scanSpec, hres]; rfl
            _ = scanSpec ratio (a :: rest) m c := by rw [scanSpec, hfind, hres]; rfl
    · have hconda : ¬ ((decide (|ratio - a.2| < m) &&
          (a :: rest).all (fun q => decide (|ratio - a.2| ≤ |ratio - q.2|))) = true) := by
        simp only [Bool.and_eq_true, decide_eq_true_eq]
        rintro ⟨hlt, -⟩
        exact ha hlt
      have hcongr : ∀ p ∈ rest,
          (decide (|ratio - p.2| < m) &&
            rest.all (fun q => decide (|ratio - p.2| ≤ |ratio - q.2|))) =
          (decide (|ratio - p.2| < m) &&
            (a :: rest).all (fun q => decide (|ratio - p.2| ≤ |ratio - q.2|))) := by
        intro p hp
        by_cases hpm : |ratio - p.2| < m
        · have hpa : |ratio - p.2| ≤ |ratio - a.2| := le_trans (le_of_lt hpm) (not_lt.mp ha)
          simp [List.all_cons, hpm, hpa]
        · simp [hpm]
      have hfind : (a :: rest).find? (fun p => decide (|ratio - p.2| < m) &&
          (a :: rest).all fun q => decide (|ratio - p.2| ≤ |ratio - q.2|)) =
          rest.find? (fun p => decide (|ratio - p.2| < m) &&
            rest.all fun q => decide (|ratio - p.2| ≤ |ratio - q.2|)) := by
        rw [List.find?_cons_of_neg rest hconda]
        exact (find?_congr_of_mem rest hcongr).symm
      calc ratioScan ratio (a :: rest) m c
          = ratioScan ratio rest m c := by
            simp only [ratioScan, if_neg ha]
        _ = scanSpec ratio rest m c := ih _ _
        _ = scanSpec ratio (a :: rest) m c := by rw [scanSpec, scanSpec, hfind]


/-- **C6 (confirmed)**: the scan returns the first minimum-distance label (for
every ratio whose distance to the first entry is below `Number.MAX_VALUE`,
which holds for every real image); ratio 3/2 maps to `"4:3"`, ratio 1 to
`"1:1"`, and a decode failure to `"1:1"`. -/
theorem c6_getClosestAspectRatio_first_min :
    (∀ ratio : ℚ, |ratio - 1| < jsMaxValue →
      getClosestAspectRatioCore ratio = specClosestRatio ratio) ∧
    getClosestAspectRatioCore (3 / 2) = "4:3" ∧
    getClosestAspectRatioCore 1 = "1:1" ∧
    getClosestAspectRatio none = "1:1" := by
  refine ⟨fun ratio hr => ?_, ?_, ?_, ?_⟩
  · have key := ratioScan_eq_scanSpec ratio supportedRatios jsMaxValue "1:1"
    have hcongr : ∀ p ∈ supportedRatios,
        (decide (|ratio - p.2| < jsMaxValue) &&
          supportedRatios.all (fun q => decide (|ratio - p.2| ≤ |ratio - q.2|))) =
        supportedRatios.all (fun q => decide (|ratio - p.2| ≤ |ratio - q.2|)) := by
      intro p hp
      by_cases hall : ∀ q ∈ supportedRatios, |ratio - p.2| ≤ |ratio - q.2|
      · have h1 : |ratio - p.2| ≤ |ratio - 1| := by
          have h2 := hall ("1:1", 1) (by simp [supportedRatios])
          simpa using h2
        have h2 : |ratio - p.2| < jsMaxValue := lt_of_le_of_lt h1 hr
        have hallb : supportedRatios.all
            (fun q => decide (|ratio - p.2| ≤ |ratio - q.2|)) = true := by
          simp only [List.all_eq_true, decide_eq_true_eq]
          exact hall
        simp [hallb, h2]
      · have hallb : supportedRatios.all
            (fun q => decide (|ratio - p.2| ≤ |ratio - q.2|)) = false := by
          rw [Bool.eq_false_iff]
          simp only [ne_eq, List.all_eq_true, decide_eq_true_eq]
          exact hall
        simp [hallb]
    unfold getClosestAspectRatioCore
    rw [key, scanSpec, specClosestRatio, find?_congr_of_mem supportedRatios hcongr]
  · norm_num [getClosestAspectRatioCore, supportedRatios, ratioScan, jsMaxValue,
      abs_of_nonneg]
  · norm_num [getClosestAspectRatioCore, supportedRatios, ratioScan, jsMaxValue,
      abs_of_nonneg]
  · rfl

/-- Witness for C6: the scan/spec agreement applied at the concrete ratio 2. -/
theorem c6_witness : getClosestAspectRatioCore 2 = specClosestRatio 2 :=
  c6_getClosestAspectRatio_first_min.1 2 (by norm_num [jsMaxValue])

/-!
## `compositeImage` (src/services/geminiService.ts, lines 357–390 and 948–981)

```ts
canvas.width = bg.naturalWidth; canvas.height = bg.naturalHeight;
ctx.drawImage(bg, 0, 0);
fgCanvas.width = canvas.width; fgCanvas.height = canvas.height;
if (options.edgeBlend > 0) { fgCtx.filter = `blur(...)`; }
fgCtx.drawImage(mask, 0, 0);
fgCtx.globalCompositeOperation = 'source-in';
fgCtx.filter = 'none';
fgCtx.drawImage(fg, 0, 0, canvas.width, canvas.height);
ctx.drawImage(fgCanvas, 0, 0);
```
The `box` parameter is accepted but never referenced in either copy of the
function.  The blur filter applied to the mask draw is kept abstract as a
function parameter: no claim depends on its kernel.
-/

/-- `BoundingBox` from `src/types.ts`. -/
structure BoundingBox where
  x : ℚ
  y : ℚ
  width : ℚ
  height : ℚ

/-- The `options` record of `compositeImage`. -/
structure CompositeOptions where
  edgeBlend : ℚ

/-- The pixel pipeline of `compositeImage` on the decoded images.  `blurFilter`
stands for the canvas `blur(r px)` filter applied while drawing the mask. -/
def compositeImage (blurFilter : ℚ → Image → Image) (bgImage fgImage : Image)
    (box : BoundingBox) (maskImage : Image) (options : CompositeOptions) : Image :=
  let canvas := drawUnscaled (blank bgImage.width bgImage.height) bgImage
  let maskDrawn :=
    if options.edgeBlend > 0 then blurFilter options.edgeBlend maskImage else maskImage
  let fgCanvas := drawUnscaled (blank bgImage.width bgImage.height) maskDrawn
  let fgMasked := drawScaledSrcIn fgCanvas fgImage
  drawUnscaled canvas fgMasked

/-- **C7 (confirmed)**: the output of `compositeImage` is independent of the
`box` argument — the foreground is stretched to the whole canvas and `box` is
never read — for every blur filter, background, foreground, mask and options. -/
theorem c7_compositeImage_box_independent
    (blurFilter : ℚ → Image → Image) (bgImage fgImage : Image)
    (box1 box2 : BoundingBox) (maskImage : Image) (options : CompositeOptions) :
    compositeImage blurFilter bgImage fgImage box1 maskImage options =
      compositeImage blurFilter bgImage fgImage box2 maskImage options := rfl

/-!
## The outpainting finishing step (src/services/geminiService.ts, lines 1336–1376)

`outpaintImage` recomputes the `padGeometry` centering, builds the padded
image and its complementary mask, calls the remote model, and finishes with

```ts
finalCanvas.width = canvasWidth; finalCanvas.height = canvasHeight;
fCtx.drawImage(resultImg, 0, 0, canvasWidth, canvasHeight);
fCtx.drawImage(img, dx, dy);
return finalCanvas.toDataURL('image/png');
```
-/

/-- The finishing step of `outpaintImage`: the remote model's candidate is
stretched to the padded canvas, then the original source is re-drawn at
`(dx, dy)` on top. -/
def outpaintFinish (img : Image) (targetAspectRatio : ℚ) (resultImg : Image) : Image :=
  let g := padGeometry img.width img.height targetAspectRatio
  let finalCanvas := drawScaled (blank g.canvasWidth.toNat g.canvasHeight.toNat) resultImg
  drawUnscaledAt finalCanvas img g.dx g.dy

theorem round_mono_rat {x y : ℚ} (h : x ≤ y) : round x ≤ round y := by
  rw [round_eq, round_eq]
  exact Int.floor_le_floor (by linarith)

theorem round_nonneg_rat {x : ℚ} (h : 0 ≤ x) : 0 ≤ round x := by
  have h1 := round_mono_rat h
  rwa [round_zero] at h1

theorem padGeometry_offsets_nonneg (w h : ℕ) (r : ℚ) (hh : 0 < h) (hr : 0 < r) :
    0 ≤ (padGeometry w h r).dx ∧ 0 ≤ (padGeometry w h r).dy := by
  have hhq : (0 : ℚ) < (h : ℚ) := by exact_mod_cast hh
  unfold padGeometry
  dsimp only
  split_ifs with hcond
  · refine ⟨le_refl 0, ?_⟩
    have hwr : (h : ℚ) ≤ (w : ℚ) / r := by
      rw [le_div_iff hr]
      have := (lt_div_iff hhq).mp hcond
      linarith
    have hch : (h : ℤ) ≤ round ((w : ℚ) / r) := by
      have h1 : round ((h : ℚ)) ≤ round ((w : ℚ) / r) := round_mono_rat hwr
      rwa [round_natCast] at h1
    have hchq : (h : ℚ) ≤ ((round ((w : ℚ) / r) : ℤ) : ℚ) := by exact_mod_cast hch
    exact round_nonneg_rat (by linarith)
  · refine ⟨?_, le_refl 0⟩
    have hwr : (w : ℚ) ≤ (h : ℚ) * r := by
      have h1 : (w : ℚ) / (h : ℚ) ≤ r := not_lt.mp hcond
      calc (w : ℚ) = (w : ℚ) / (h : ℚ) * (h : ℚ) := by field_simp
        _ ≤ r * (h : ℚ) := by
            exact mul_le_mul_of_nonneg_right h1 (le_of_lt hhq)
        _ = (h : ℚ) * r := mul_comm r (h : ℚ)
    have hcw : (w : ℤ) ≤ round ((h : ℚ) * r) := by
      have h1 : round ((w : ℚ)) ≤ round ((h : ℚ) * r) := round_mono_rat hwr
      rwa [round_natCast] at h1
    have hcwq : (w : ℚ) ≤ ((round ((h : ℚ) * r) : ℤ) : ℚ) := by exact_mod_cast hcw
    exact round_nonneg_rat (by linarith)

theorem drawUnscaledAt_pix_src (dest src : Image) (dx dy : ℤ) (x y : ℕ)
    (hdx : 0 ≤ dx) (hdy : 0 ≤ dy) (hx : x < src.width) (hy : y < src.height)
    (hop : (src.pix x y).a = 1) :
    (drawUnscaledAt dest src dx dy).pix (dx.toNat + x) (dy.toNat + y) = src.pix x y := by
  show srcOver (src.atInt (((dx.toNat + x : ℕ) : ℤ) - dx) (((dy.toNat + y : ℕ) : ℤ) - dy))
      (dest.pix (dx.toNat + x) (dy.toNat + y)) = src.pix x y
  have e1 : ((dx.toNat + x : ℕ) : ℤ) - dx = (x : ℤ) := by
    push_cast [Int.toNat_of_nonneg hdx]
    ring
  have e2 : ((dy.toNat + y : ℕ) : ℤ) - dy = (y : ℤ) := by
    push_cast [Int.toNat_of_nonneg hdy]
    ring
  rw [e1, e2]
  have hin : src.atInt (x : ℤ) (y : ℤ) = src.pix x y := by
    unfold Image.atInt
    rw [if_pos ⟨Int.natCast_nonneg x, by exact_mod_cast hx,
      Int.natCast_nonneg y, by exact_mod_cast hy⟩]
    simp
  rw [hin, srcOver_opaque_left _ _ hop]

/-- **C8 (amended)**: for every *fully opaque* source and every candidate the
remote model returns, the rectangle `(dx, dy, width, height)` of the finished
outpainting canvas is pixel-identical to the source, regardless of the
candidate's content.  (For a source with transparent pixels the candidate
shows through `source-over`; see the counterexample.) -/
theorem c8_outpaintFinish_preserves_source (img resultImg : Image) (r : ℚ)
    (hr : 0 < r) (hh : 0 < img.height)
    (hsrcop : ∀ i j, i < img.width → j < img.height → (img.pix i j).a = 1)
    (x y : ℕ) (hx : x < img.width) (hy : y < img.height) :
    (outpaintFinish img r resultImg).pix
        ((padGeometry img.width img.height r).dx.toNat + x)
        ((padGeometry img.width img.height r).dy.toNat + y) = img.pix x y := by
  obtain ⟨hdx, hdy⟩ := padGeometry_offsets_nonneg img.width img.height r hh hr
  exact drawUnscaledAt_pix_src _ img _ _ x y hdx hdy hx hy (hsrcop x y hx hy)

/-- **C8 (counterexample)**: a 1×1 fully transparent source at target ratio 1
with an opaque blue candidate: the finished canvas shows the candidate at the
source position, not the source. -/
theorem c8_transparent_source_counterexample :
    ¬ ((outpaintFinish (filled 1 1 Pixel.transparent) 1 (filled 1 1 ⟨0, 0, 1, 1⟩)).pix
        ((padGeometry 1 1 1).dx.toNat + 0) ((padGeometry 1 1 1).dy.toNat + 0) =
      (filled 1 1 Pixel.transparent).pix 0 0) := by
  norm_num [outpaintFinish, padGeometry, drawScaled, drawUnscaledAt, blank, filled,
    resample, Image.atPx, Image.atInt, srcOver, Pixel.transparent, round_eq,
    Pixel.mk.injEq]

/-- Witness for C8: a 1×1 opaque red source at ratio 1 with a blue candidate. -/
theorem c8_witness :
    (outpaintFinish (filled 1 1 ⟨1, 0, 0, 1⟩) 1 (filled 1 1 ⟨0, 0, 1, 1⟩)).pix
        ((padGeometry 1 1 1).dx.toNat + 0) ((padGeometry 1 1 1).dy.toNat + 0) =
      (filled 1 1 ⟨1, 0, 0, 1⟩).pix 0 0 :=
  c8_outpaintFinish_preserves_source _ _ 1 (by norm_num) (by decide)
    (fun _ _ _ _ => rfl) 0 0 (by decide) (by decide)

/-!
## `getActivationCode` (src/services/geminiService.ts, lines 156–168)

```ts
if (!email) return "000000";
let hash = 0;
const lowerEmail = email.toLowerCase().trim();
for (let i = 0; i < lowerEmail.length; i++) {
    const char = lowerEmail.charCodeAt(i);
    hash = ((hash << 5) - hash) + char;
    hash = hash & hash; // Convert to 32bit integer
}
const code = Math.abs(hash % 900000 + 100000).toString();
return code;
```
Strings are modelled as lists of UTF-16 code units.  `toLowerCase` is modelled
on the ASCII range (the only range the claims exercise); `trim` strips the JS
whitespace code units.  JS `<<` and `& hash` truncate to a signed 32-bit
integer; `%` is the truncated remainder (`Int.tmod`).
-/

/-- JS `ToInt32`: wrap into the signed 32-bit range. -/
def toInt32 (n : ℤ) : ℤ := (n + 2 ^ 31) % 2 ^ 32 - 2 ^ 31

/-- One iteration of the rolling hash: `hash = ((hash << 5) - hash) + char`
followed by `hash = hash & hash`. -/
def hashStep (hash : ℤ) (c : ℕ) : ℤ := toInt32 (toInt32 (hash * 32) - hash + (c : ℤ))

/-- The rolling hash over the code units of the normalised email. -/
def hashString (units : List ℕ) : ℤ := units.foldl hashStep 0

/-- `toLowerCase` on the ASCII range (code units 65–90 map to 97–122). -/
def asciiToLower (c : ℕ) : ℕ := if 65 ≤ c ∧ c ≤ 90 then c + 32 else c

/-- The JS whitespace/line-terminator code units stripped by `trim`. -/
def jsWhitespace (c : ℕ) : Bool :=
  c ∈ [9, 10, 11, 12, 13, 32, 160, 8232, 8233, 65279]

/-- JS `String.prototype.trim`. -/
def jsTrim (units : List ℕ) : List ℕ :=
  ((units.dropWhile jsWhitespace).reverse.dropWhile jsWhitespace).reverse

/-- `getActivationCode` on the email's code units. -/
def getActivationCode (email : List ℕ) : String :=
  if email = [] then "000000"
  else
    (Int.natAbs
        (Int.tmod (hashString (jsTrim (email.map asciiToLower))) 900000 + 100000)).repr

/-- The code units of `"john8@gmail.com"`. -/
def john8Email : List ℕ :=
  [106, 111, 104, 110, 56, 64, 103, 109, 97, 105, 108, 46, 99, 111, 109]

set_option maxRecDepth 4000 in
/-- **C9 (code bug)**: the claim (and the code's own comment, "Convert to a
positive 6-digit code") promises a 6-digit code for every email, but for
`"john8@gmail.com"` the 32-bit hash is negative (−1563302338), the truncated
remainder `hash % 900000` is −2338, and `Math.abs(−2338 + 100000)` is 97662 —
a five-digit code. -/
theorem c9_activation_code_not_six_digits :
    getActivationCode john8Email = "97662" ∧
      (getActivationCode john8Email).length = 5 := by
  constructor
  · decide
  · decide

/-!
## `sourceImageToDataUrl` / `dataUrlToSourceImage`
   (src/services/geminiService.ts, lines 170–180)

```ts
export const sourceImageToDataUrl = (image) => `data:${image.mimeType};base64,${image.base64}`;
export const dataUrlToSourceImage = (dataUrl) => {
    if (!dataUrl) return null;
    const [header, base64Data] = dataUrl.split(',');
    const mimeType = header.match(/:(.*?);/)?.[1];
    if (!base64Data || !mimeType) return null;
    return { base64: base64Data, mimeType };
};
```
Strings are modelled as lists of characters.  `String.prototype.split` is
`jsSplit`; the regex `/:(.*?);/` is `jsMatchMime`: the leftmost `:` from which
a lazy `.*?` (which cannot cross a line terminator) reaches a `;`, capturing
the characters between.  JS falsiness of `undefined` and `""` is the
`none`/`[]` test.
-/

/-- `SourceImage` from `src/types.ts`, over character lists. -/
structure SourceImage where
  base64 : List Char
  mimeType : List Char
  deriving DecidableEq, Repr

/-- `sourceImageToDataUrl`. -/
def sourceImageToDataUrl (image : SourceImage) : List Char :=
  "data:".toList ++ image.mimeType ++ ";base64,".toList ++ image.base64

/-- JS `String.prototype.split` on a single-character separator. -/
def jsSplit (sep : Char) : List Char → List (List Char)
  | [] => [[]]
  | c :: rest =>
    match jsSplit sep rest with
    | [] => [[]]
    | chunk :: chunks =>
      if c = sep then [] :: chunk :: chunks else (c :: chunk) :: chunks

/-- The line terminators that JS regex `.` does not match. -/
def isLineTerminator (c : Char) : Bool :=
  c = Char.ofNat 10 || c = Char.ofNat 13 || c = Char.ofNat 8232 || c = Char.ofNat 8233

/-- The lazy `(.*?);` part of the regex: the shortest prefix up to a `;`,
failing if a line terminator intervenes or no `;` follows. -/
def lazyCapture : List Char → Option (List Char)
  | [] => none
  | c :: rest =>
    if c = ';' then some []
    else if isLineTerminator c then none
    else (lazyCapture rest).map (fun cap => c :: cap)

/-- `header.match(/:(.*?);/)?.[1]`: the capture at the leftmost `:` from which
the lazy capture succeeds. -/
def jsMatchMime : List Char → Option (List Char)
  | [] => none
  | c :: rest =>
    if c = ':' then
      match lazyCapture rest with
      | some cap => some cap
      | none => jsMatchMime rest
    else jsMatchMime rest

/-- `dataUrlToSourceImage`. -/
def dataUrlToSourceImage (dataUrl : List Char) : Option SourceImage :=
  if dataUrl = [] then none
  else
    let chunks := jsSplit ',' dataUrl
    let header := chunks.headD []
    match chunks.get? 1, jsMatchMime header with
    | some base64Data, some mimeType =>
      if base64Data = [] ∨ mimeType = [] then none
      else some ⟨base64Data, mimeType⟩
    | _, _ => none

theorem jsSplit_ne_nil (sep : Char) : ∀ l : List Char, jsSplit sep l ≠ [] := by
  intro l
  cases l with
  | nil => simp [jsSplit]
  | cons c rest =>
    rw [jsSplit]
    cases jsSplit sep rest with
    | nil => simp
    | cons chunk chunks =>
      split_ifs <;> simp

theorem jsSplit_no_sep (sep : Char) :
    ∀ l : List Char, (∀ c ∈ l, c ≠ sep) → jsSplit sep l = [l] := by
  intro l
  induction l with
  | nil => intro _; rfl
  | cons c rest ih =>
    intro h
    rw [jsSplit, ih (fun d hd => h d (List.mem_cons_of_mem c hd))]
    dsimp only
    rw [if_neg (h c (List.mem_cons_self c rest))]

theorem jsSplit_append_sep (sep : Char) :
    ∀ (l₁ l₂ : List Char), (∀ c ∈ l₁, c ≠ sep) →
      jsSplit sep (l₁ ++ sep :: l₂) = l₁ :: jsSplit sep l₂ := by
  intro l₁
  induction l₁ with
  | nil =>
    intro l₂ _
    rw [List.nil_append, jsSplit]
    cases h : jsSplit sep l₂ with
    | nil => exact absurd h (jsSplit_ne_nil sep l₂)
    | cons chunk chunks =>
      dsimp only
      rw [if_pos rfl]
  | cons c rest ih =>
    intro l₂ h
    rw [List.cons_append, jsSplit, ih l₂ (fun d hd => h d (List.mem_cons_of_mem c hd))]
    dsimp only
    rw [if_neg (h c (List.mem_cons_self c rest))]

theorem lazyCapture_append (tail : List Char) :
    ∀ mime : List Char,
      (∀ c ∈ mime, c ≠ ';' ∧ isLineTerminator c = false) →
      lazyCapture (mime ++ ';' :: tail) = some mime := by
  intro mime
  induction mime with
  | nil => intro _; rw [List.nil_append, lazyCapture, if_pos rfl]
  | cons c rest ih =>
    intro h
    obtain ⟨hc, hterm⟩ := h c (List.mem_cons_self c rest)
    rw [List.cons_append, lazyCapture, if_neg hc, hterm,
      ih (fun d hd => h d (List.mem_cons_of_mem c hd))]
    rfl

/-- **C10 (amended)**: the data-URL encoding round-trips for every
`SourceImage` whose mimeType is non-empty and free of `;`, `,` and line
terminators and whose base64 payload is non-empty and free of `,`; and
`dataUrlToSourceImage` returns `null` for the empty string and for every
string whose comma-split lacks a non-empty second chunk or whose header lacks
a parseable non-empty media type.  (The original claim omitted "non-empty
mimeType": the all-but-empty mimeType is refuted by the counterexample, whose
header `data:;base64` makes the regex capture the empty string, which is
falsy.) -/
theorem c10_dataUrl_roundtrip :
    (∀ img : SourceImage,
      img.mimeType ≠ [] →
      (∀ c ∈ img.mimeType, c ≠ ';' ∧ c ≠ ',' ∧ isLineTerminator c = false) →
      img.base64 ≠ [] →
      (∀ c ∈ img.base64, c ≠ ',') →
      dataUrlToSourceImage (sourceImageToDataUrl img) = some img) ∧
    dataUrlToSourceImage [] = none ∧
    (∀ dataUrl : List Char,
      ((jsSplit ',' dataUrl).get? 1 = none ∨ (jsSplit ',' dataUrl).get? 1 = some [] ∨
        jsMatchMime ((jsSplit ',' dataUrl).headD []) = none ∨
        jsMatchMime ((jsSplit ',' dataUrl).headD []) = some []) →
      dataUrlToSourceImage dataUrl = none) := by
  refine ⟨fun img hmime_ne hmime hb64_ne hb64 => ?_, rfl, fun dataUrl h => ?_⟩
  · have hsplit : jsSplit ',' (sourceImageToDataUrl img) =
        ("data:".toList ++ img.mimeType ++ ";base64".toList) :: [img.base64] := by
      have hshape : sourceImageToDataUrl img =
          ("data:".toList ++ img.mimeType ++ ";base64".toList) ++ ',' :: img.base64 := by
        simp [sourceImageToDataUrl]
      rw [hshape, jsSplit_append_sep ',' _ img.base64 ?nosep, jsSplit_no_sep ',' _ hb64]
      case nosep =>
        have hdata : ∀ c ∈ "data:".toList, c ≠ ',' := by decide
        have hb64lbl : ∀ c ∈ ";base64".toList, c ≠ ',' := by decide
        intro c hc
        rcases List.mem_append.mp hc with hc | hc
        · rcases List.mem_append.mp hc with hc | hc
          · exact hdata c hc
          · exact (hmime c hc).2.1
        · exact hb64lbl c hc
    have hmatch : jsMatchMime ("data:".toList ++ img.mimeType ++ ";base64".toList) =
        some img.mimeType := by
      have hcap : lazyCapture (img.mimeType ++ ';' :: "base64".toList) =
          some img.mimeType :=
        lazyCapture_append _ img.mimeType (fun c hc => ⟨(hmime c hc).1, (hmime c hc).2.2⟩)
      show jsMatchMime ('d' :: 'a' :: 't' :: 'a' :: ':' ::
        (img.mimeType ++ ';' :: "base64".toList)) = some img.mimeType
      rw [jsMatchMime, if_neg (by decide), jsMatchMime, if_neg (by decide),
        jsMatchMime, if_neg (by decide), jsMatchMime, if_neg (by decide),
        jsMatchMime, if_pos rfl, hcap]
    have hne : sourceImageToDataUrl img ≠ [] := by
      simp [sourceImageToDataUrl]
    rw [dataUrlToSourceImage, if_neg hne]
    simp only [hsplit, List.headD, List.get?, hmatch]
    rw [if_neg (by
      rintro (h | h)
      · exact hb64_ne h
      · exact hmime_ne h)]
  · rw [dataUrlToSourceImage]
    split_ifs with hnil
    · rfl
    · dsimp only
      cases hg : (jsSplit ',' dataUrl).get? 1 with
      | none =>
        cases hm : jsMatchMime ((jsSplit ',' dataUrl).headD []) <;> rfl
      | some b64 =>
        cases hm : jsMatchMime ((jsSplit ',' dataUrl).headD []) with
        | none => rfl
        | some mime =>
          dsimp only
          rcases h with h | h | h | h
          · rw [hg] at h
            exact Option.noConfusion h
          · rw [hg] at h
            rw [if_pos (Or.inl (Option.some_injective _ h))]
          · rw [hm] at h
            exact Option.noConfusion h
          · rw [hm] at h
            rw [if_pos (Or.inr (Option.some_injective _ h))]

/-- Witness for C10: a concrete `image/png` image round-trips. -/
theorem c10_witness :
    dataUrlToSourceImage (sourceImageToDataUrl ⟨"AAA".toList, "image/png".toList⟩) =
      some ⟨"AAA".toList, "image/png".toList⟩ :=
  c10_dataUrl_roundtrip.1 ⟨"AAA".toList, "image/png".toList⟩
    (by decide) (by decide) (by decide) (by decide)

/-- **C10 (counterexample)**: a `SourceImage` with an *empty* mimeType meets
every condition of the original claim, yet decoding its data URL yields
`null`, not the image: the regex capture is empty, which is falsy. -/
theorem c10_empty_mime_counterexample :
    dataUrlToSourceImage (sourceImageToDataUrl ⟨"AAA".toList, []⟩) = none := by
  decide

end CpgvnApp
